import Mathlib

/- Shallow embedding of the global-illumination caching subsystem of the
   pbrt-v2 renderer: the piecewise-constant 1D distribution
   (core/montecarlo.h), the dipole subsurface point cloud and cluster
   octree (integrators/dipolesubsurface.cpp), and the irradiance cache
   (integrators/irradiancecache.cpp).  Machine floats are modelled as
   exact rationals, or as reals where a square root occurs; division by
   zero follows the Lean convention x / 0 = 0. -/

namespace Pbrt

/-! ### Distribution1D (core/montecarlo.h, lines 33-83) -/

/-- The `Distribution1D` data: the function samples `func`, the
normalised CDF of length `count + 1`, the step-function integral
`funcInt` and the sample count. -/
structure Distribution1D where
  func : List ℚ
  cdf : List ℚ
  funcInt : ℚ
  count : ℕ

/-- `Distribution1D::Distribution1D`: `cdf[0] = 0`,
`cdf[i] = cdf[i-1] + f[i-1] / n`, `funcInt = cdf[n]`, and then every
entry is divided by `funcInt` (the code divides entries `1..n`; entry 0
is 0 and is unchanged by the division, so mapping over all entries is
the same list). -/
def mkDistribution1D (f : List ℚ) : Distribution1D :=
  let n : ℕ := f.length
  let raw : List ℚ := f.scanl (fun c x => c + x / (n : ℚ)) 0
  let fInt : ℚ := raw.getLastD 0
  { func := f, cdf := raw.map (fun c => c / fInt), funcInt := fInt, count := n }

/-- `std::lower_bound(cdf, cdf + count + 1, u) - cdf`: the index of the
first entry that is not less than `u`, or the list length when every
entry is less than `u`. -/
def lowerBoundIdx : List ℚ → ℚ → ℕ
  | [], _ => 0
  | c :: rest, u => if u ≤ c then 0 else lowerBoundIdx rest u + 1

/-- `Distribution1D::SampleContinuous` (montecarlo.h lines 54-67).
`offset = max(0, lower_bound(..) - cdf - 1)` is truncated natural
subtraction here; the returned pair is `(x, pdf)` with
`x = (offset + du) / count`, `du = (u - cdf[offset]) / (cdf[offset+1] -
cdf[offset])` and `pdf = func[offset] / funcInt`. -/
def sampleContinuous (d : Distribution1D) (u : ℚ) : ℚ × ℚ :=
  let offset : ℕ := lowerBoundIdx d.cdf u - 1
  let cOff := d.cdf.getD offset 0
  let cNext := d.cdf.getD (offset + 1) 0
  let du := (u - cOff) / (cNext - cOff)
  let pdf := d.func.getD offset 0 / d.funcInt
  (((offset : ℚ) + du) / (d.count : ℚ), pdf)

/-- `Distribution1D::SampleDiscrete` (montecarlo.h lines 68-76).  The
returned pair is `(offset, pdf)`; the code writes
`pdf = func[offset] / funcInt` (with no division by `count`). -/
def sampleDiscrete (d : Distribution1D) (u : ℚ) : ℕ × ℚ :=
  let offset : ℕ := lowerBoundIdx d.cdf u - 1
  (offset, d.func.getD offset 0 / d.funcInt)

/-- The uniform four-sample function of the spec scenario
"Distribution1D uniform". -/
def uniform4 : Distribution1D := mkDistribution1D [1, 1, 1, 1]

/-- The two-sample uniform function used to exhibit the `SampleDiscrete`
pdf discrepancy. -/
def uniform2 : Distribution1D := mkDistribution1D [1, 1]

/-! ### Geometry and spectra

`core/geometry.h` and `core/spectrum.h` are outside the extracted
sources; points, vectors and spectra are modelled from the spec as
triples of exact rationals with componentwise arithmetic. -/

/-- A three-component vector or point (componentwise exact-rational
arithmetic). -/
abbrev Vec3 := Fin 3 → ℚ

/-- A spectrum: three colour channels with componentwise arithmetic. -/
abbrev Spectrum := Fin 3 → ℚ

/-- Modelled from the spec: the luminance functional `y(·)` of
`core/spectrum.h`, a fixed positively-weighted combination of the three
channels (the Rec. 709 weights of `RGBSpectrum::y`). -/
def specY (s : Spectrum) : ℚ :=
  (212671/1000000) * s 0 + (715160/1000000) * s 1 + (72169/1000000) * s 2

/-- Componentwise scalar division, `s / c` (division by zero yields the
zero component). -/
def divC (s : Fin 3 → ℚ) (c : ℚ) : Fin 3 → ℚ := fun i => s i / c

/-- Scale a spectrum by a scalar on the right, `s * c`. -/
def sscale (s : Spectrum) (c : ℚ) : Spectrum := fun i => s i * c

/-- Squared distance `DistanceSquared(a, b)`. -/
def distSq (a b : Vec3) : ℚ :=
  (a 0 - b 0)^2 + (a 1 - b 1)^2 + (a 2 - b 2)^2

/-- An axis-aligned bounding box. -/
structure BBox where
  pMin : Vec3
  pMax : Vec3

/-- Modelled from the spec: `BBox::Inside(p)` of `core/geometry.h`
tests `pMin ≤ p ≤ pMax` componentwise. -/
def bboxInside (b : BBox) (p : Vec3) : Bool :=
  decide (b.pMin 0 ≤ p 0) && decide (p 0 ≤ b.pMax 0) &&
  decide (b.pMin 1 ≤ p 1) && decide (p 1 ≤ b.pMax 1) &&
  decide (b.pMin 2 ≤ p 2) && decide (p 2 ≤ b.pMax 2)

/-- The node midpoint `pMid = 0.5 * pMin + 0.5 * pMax`. -/
def midVec (b : BBox) : Vec3 := fun i => (1/2) * b.pMin i + (1/2) * b.pMax i

/-- The octant index of a point relative to the midpoint
(`(p.x > pMid.x ? 4 : 0) + (p.y > pMid.y ? 2 : 0) + (p.z > pMid.z ? 1 : 0)`,
dipolesubsurface.cpp lines 119-120 and 129-130). -/
def octant (p pMid : Vec3) : ℕ :=
  (if pMid 0 < p 0 then 4 else 0) + (if pMid 1 < p 1 then 2 else 0) +
    (if pMid 2 < p 2 then 1 else 0)

/-- Modelled from the spec: `octreeChildBound(child, nodeBound, pMid)`
of `core/octree.h`: the child octant box, taking for each axis the
upper half iff the corresponding bit of `child` is set. -/
def octreeChildBound (child : ℕ) (b : BBox) (pMid : Vec3) : BBox where
  pMin := fun i =>
    if child &&& (2^(2 - (i : ℕ))) ≠ 0 then pMid i else b.pMin i
  pMax := fun i =>
    if child &&& (2^(2 - (i : ℕ))) ≠ 0 then b.pMax i else pMid i

/-! ### Subsurface irradiance points and the cluster octree
(integrators/dipolesubsurface.cpp) -/

/-- An irradiance point (dipolesubsurface.h): position, normal,
irradiance `E`, Poisson-disk cell `area` and the self-intersection
epsilon. -/
structure IrradiancePoint where
  p : Vec3
  n : Vec3
  E : Spectrum
  area : ℚ
  rayEpsilon : ℚ

/-- A `SubsurfaceOctreeNode` (dipolesubsurface.cpp lines 89-182): a
leaf holds the nullable 8-slot array `ips` of stored points, an
interior node the nullable 8-slot child array; both carry the
aggregate fields `p`, `E`, `sumArea`. -/
inductive SSNode where
  | leaf (pos : Vec3) (E : Spectrum) (sumArea : ℚ)
      (ips : List (Option IrradiancePoint))
  | interior (pos : Vec3) (E : Spectrum) (sumArea : ℚ)
      (children : List (Option SSNode))

/-- The `p` field of a node. -/
def ssPos : SSNode → Vec3
  | .leaf q _ _ _ => q
  | .interior q _ _ _ => q

/-- The `E` field of a node. -/
def ssE : SSNode → Spectrum
  | .leaf _ e _ _ => e
  | .interior _ e _ _ => e

/-- The `sumArea` field of a node. -/
def ssSumArea : SSNode → ℚ
  | .leaf _ _ a _ => a
  | .interior _ _ a _ => a

/-- A freshly constructed `SubsurfaceOctreeNode` (constructor, lines
91-96): a leaf with 8 empty slots; `sumArea` is set to zero and `p`,
`E` are default-initialised to zero. -/
def emptyLeafNode : SSNode := .leaf 0 0 0 (List.replicate 8 none)

/-- The leaf-insertion scan (lines 102-107): store the point in the
first null slot, or report that every slot is occupied. -/
def placeFirstFree (ip : IrradiancePoint) :
    List (Option IrradiancePoint) → Option (List (Option IrradiancePoint))
  | [] => none
  | none :: rest => some (some ip :: rest)
  | some q :: rest => (placeFirstFree ip rest).map (fun r => some q :: r)

mutual

/-- `SubsurfaceOctreeNode::Insert` (lines 97-135), with an explicit
recursion-depth `fuel` standing for the unbounded C++ recursion (which
is finite exactly when no nine inserted points share an octant chain of
unbounded depth); exhausted fuel returns the node unchanged.  A leaf
with a free slot stores the point; a full leaf is converted to an
interior node, its 8 points are redistributed into octant children (a
missing child is a freshly constructed node), and the new point then
falls through to the interior-insertion path. -/
def insertIP : ℕ → SSNode → BBox → IrradiancePoint → SSNode
  | 0, nd, _, _ => nd
  | fuel + 1, nd, bound, ip =>
    match nd with
    | .leaf pos E sA ips =>
      match placeFirstFree ip ips with
      | some ips' => .leaf pos E sA ips'
      | none =>
        let cs1 := (ips.filterMap id).foldl
          (fun cs q => insertIntoChild fuel bound cs q) (List.replicate 8 none)
        .interior pos E sA (insertIntoChild fuel bound cs1 ip)
    | .interior pos E sA cs =>
      .interior pos E sA (insertIntoChild fuel bound cs ip)
termination_by fuel _ _ _ => 2 * fuel

/-- The shared interior-insertion step (lines 118-124 and 128-134):
compute the octant of the point relative to the node midpoint, create
the child if it is null, and insert the point into the child with the
child octant bound. -/
def insertIntoChild (fuel : ℕ) (bound : BBox)
    (cs : List (Option SSNode)) (q : IrradiancePoint) :
    List (Option SSNode) :=
  let pMid := midVec bound
  let ch := octant q.p pMid
  let c := (cs.getD ch none).getD emptyLeafNode
  cs.set ch (some (insertIP fuel c (octreeChildBound ch bound pMid) q))
termination_by 2 * fuel + 1

end

/-- The points visited by a break-at-first-null loop over a slot array
(`for i: if (!ips[i]) break; ...`): the longest fully-populated
prefix. -/
def visitedPoints (ips : List (Option IrradiancePoint)) : List IrradiancePoint :=
  (ips.takeWhile Option.isSome).filterMap id

mutual

/-- `SubsurfaceOctreeNode::InitHierarchy` (lines 136-169).  A leaf
accumulates `E`, the luminance-weighted position and `sumArea` over the
slots up to the first null, divides the position by the weight sum only
when that sum is positive, and divides `E` by the break index `i`.  An
interior node first initialises its non-null children, then accumulates
from them and divides `E` by the non-null child count.  Division by a
zero count follows the rational convention `x / 0 = 0`; C++ floats give
`0.f/0 = NaN` there instead, which is reached exactly when a node has
no stored points (the never-populated root).  That error path is
modelled separately with NaN-propagating float semantics
(`emptyRootFloatE`, `moFloatEmptyRoot` below); every node of a
populated built hierarchy divides by a positive count and the two
semantics agree. -/
def initH : SSNode → SSNode
  | .leaf pos E sA ips =>
    let vs := visitedPoints ips
    let sumWt : ℚ := (vs.map (fun q => specY q.E)).sum
    let pAcc : Vec3 := pos + (vs.map (fun q => specY q.E • q.p)).sum
    let EAcc : Spectrum := E + (vs.map (fun q => q.E)).sum
    .leaf (if 0 < sumWt then divC pAcc sumWt else pAcc)
      (divC EAcc ((vs.length : ℚ))) (sA + (vs.map (fun q => q.area)).sum) ips
  | .interior pos E sA cs =>
    let cs' := initKids cs
    let kids := cs'.filterMap id
    let sumWt : ℚ := (kids.map (fun c => specY (ssE c))).sum
    let pAcc : Vec3 := pos + (kids.map (fun c => specY (ssE c) • ssPos c)).sum
    let EAcc : Spectrum := E + (kids.map ssE).sum
    .interior (if 0 < sumWt then divC pAcc sumWt else pAcc)
      (divC EAcc ((kids.length : ℚ))) (sA + (kids.map ssSumArea).sum) cs'

/-- Initialise each non-null child in slot order. -/
def initKids : List (Option SSNode) → List (Option SSNode)
  | [] => []
  | none :: rest => none :: initKids rest
  | some c :: rest => some (initH c) :: initKids rest

end

mutual

/-- `SubsurfaceOctreeNode::Mo` (lines 479-509): if the solid-angle
proxy `sumArea / ‖pt − p‖²` is below `maxError` and `pt` is outside the
node bound, return the cluster approximation
`Rd(‖pt − p‖²) * E * sumArea`; otherwise sum the stored points of a
leaf (up to the first null slot) or recurse into the non-null children
with their octant bounds. -/
def mo (nd : SSNode) (bound : BBox) (pt : Vec3) (Rd : ℚ → Spectrum)
    (maxError : ℚ) : Spectrum :=
  let dw : ℚ := ssSumArea nd / distSq pt (ssPos nd)
  if dw < maxError ∧ bboxInside bound pt = false then
    sscale (Rd (distSq pt (ssPos nd)) * ssE nd) (ssSumArea nd)
  else
    match nd with
    | .leaf _ _ _ ips =>
      ((visitedPoints ips).map
        (fun q => sscale (Rd (distSq pt q.p) * q.E) q.area)).sum
    | .interior _ _ _ cs => moKids cs 0 bound (midVec bound) pt Rd maxError

/-- The child loop of `Mo` (lines 501-506), carrying the child index. -/
def moKids (cs : List (Option SSNode)) (i : ℕ) (bound : BBox) (pMid : Vec3)
    (pt : Vec3) (Rd : ℚ → Spectrum) (maxError : ℚ) : Spectrum :=
  match cs with
  | [] => 0
  | none :: rest => moKids rest (i + 1) bound pMid pt Rd maxError
  | some c :: rest =>
    mo c (octreeChildBound i bound pMid) pt Rd maxError +
      moKids rest (i + 1) bound pMid pt Rd maxError

end

/-- The brute-force dipole sum over a point list:
`Σ Rd(‖pt − p_i‖²) * E_i * area_i`. -/
def bruteMo (pts : List IrradiancePoint) (pt : Vec3) (Rd : ℚ → Spectrum) :
    Spectrum :=
  (pts.map (fun q => sscale (Rd (distSq pt q.p) * q.E) q.area)).sum

mutual

/-- Every irradiance point stored anywhere in the tree, in slot
order. -/
def allPoints : SSNode → List IrradiancePoint
  | .leaf _ _ _ ips => ips.filterMap id
  | .interior _ _ _ cs => allPointsKids cs

/-- Stored points of a child slot list. -/
def allPointsKids : List (Option SSNode) → List IrradiancePoint
  | [] => []
  | none :: rest => allPointsKids rest
  | some c :: rest => allPoints c ++ allPointsKids rest

end

/-- The contiguous-prefix property of a slot array: after the populated
prefix every slot is null (equivalently, if slot `i` is null then every
later slot is null). -/
def slotsOkB : List (Option IrradiancePoint) → Bool
  | [] => true
  | some _ :: rest => slotsOkB rest
  | none :: rest => rest.all Option.isNone

mutual

/-- Every leaf slot array in the tree has its points in a contiguous
prefix. -/
def prefixOkB : SSNode → Bool
  | .leaf _ _ _ ips => slotsOkB ips
  | .interior _ _ _ cs => prefixOkKids cs

/-- Prefix property for every non-null child. -/
def prefixOkKids : List (Option SSNode) → Bool
  | [] => true
  | none :: rest => prefixOkKids rest
  | some c :: rest => prefixOkB c && prefixOkKids rest

end

mutual

/-- Every node of the tree has a nonnegative `sumArea` field. -/
def nonnegAreaB : SSNode → Bool
  | .leaf _ _ sA _ => decide (0 ≤ sA)
  | .interior _ _ sA cs => decide (0 ≤ sA) && nonnegAreaKids cs

/-- Nonnegative `sumArea` for every non-null child. -/
def nonnegAreaKids : List (Option SSNode) → Bool
  | [] => true
  | none :: rest => nonnegAreaKids rest
  | some c :: rest => nonnegAreaB c && nonnegAreaKids rest

end

mutual

/-- Every node of the tree has zero aggregate fields, as
default-constructed nodes do before `InitHierarchy` runs. -/
def zeroFieldsB : SSNode → Bool
  | .leaf pos E sA _ =>
    decide (pos = 0) && decide (E = 0) && decide (sA = 0)
  | .interior pos E sA cs =>
    decide (pos = 0) && decide (E = 0) && decide (sA = 0) && zeroFieldsKids cs

/-- Zero aggregate fields for every non-null child. -/
def zeroFieldsKids : List (Option SSNode) → Bool
  | [] => true
  | none :: rest => zeroFieldsKids rest
  | some c :: rest => zeroFieldsB c && zeroFieldsKids rest

end

mutual

/-- The post-`InitHierarchy` aggregate invariant of claim C5, for every
node of a tree: a leaf's `sumArea` is the sum of its stored points'
areas, its `E` the mean of their `E` over the populated count and its
`p` the luminance-weighted centroid, divided by the weight sum only
when that sum is positive; an interior node satisfies the same over its
non-null (already initialised) children. -/
def initInv : SSNode → Prop
  | .leaf pos E sA ips =>
    let pts := ips.filterMap id
    let sumWt : ℚ := (pts.map (fun q => specY q.E)).sum
    sA = (pts.map (fun q => q.area)).sum ∧
    E = divC ((pts.map (fun q => q.E)).sum) ((pts.length : ℚ)) ∧
    pos = (if 0 < sumWt
      then divC ((pts.map (fun q => specY q.E • q.p)).sum) sumWt
      else (pts.map (fun q => specY q.E • q.p)).sum)
  | .interior pos E sA cs =>
    let kids := cs.filterMap id
    let sumWt : ℚ := (kids.map (fun c => specY (ssE c))).sum
    sA = (kids.map ssSumArea).sum ∧
    E = divC ((kids.map ssE).sum) ((kids.length : ℚ)) ∧
    pos = (if 0 < sumWt
      then divC ((kids.map (fun c => specY (ssE c) • ssPos c)).sum) sumWt
      else (kids.map (fun c => specY (ssE c) • ssPos c)).sum) ∧
    initInvKids cs

/-- The invariant for every non-null child. -/
def initInvKids : List (Option SSNode) → Prop
  | [] => True
  | none :: rest => initInvKids rest
  | some c :: rest => initInv c ∧ initInvKids rest

end

/-! #### IEEE float semantics of the empty-hierarchy error path

The exact-rational model above uses the Lean convention `x / 0 = 0`;
C++ floats instead produce NaN from `0.f/0`, NaN propagates through
products (even by zero), and every ordered comparison involving NaN is
false.  The definitions below mirror, under those float rules, the one
code path that reaches a division by zero: `InitHierarchy` followed by
`Mo` on the never-populated root that
`DipoleSubsurfaceIntegrator::Preprocess` builds when no point was
deposited (lines 318-324). -/

/-- A float value on this path: `none` is NaN.  Infinities cannot
arise here — the only division by zero reached has a zero dividend. -/
abbrev Fl := Option ℚ

/-- NaN-propagating float multiplication (IEEE: `NaN * x = NaN`, even
for `x = 0`). -/
def flMul : Fl → Fl → Fl
  | some a, some b => some (a * b)
  | _, _ => none

/-- Float division: a zero divisor with the zero dividend of this path
gives NaN; NaN operands propagate. -/
def flDiv : Fl → Fl → Fl
  | some a, some b => if b = 0 then none else some (a / b)
  | _, _ => none

/-- IEEE ordered less-than: any comparison involving NaN is false. -/
def flLt : Fl → Fl → Bool
  | some a, some b => decide (a < b)
  | _, _ => false

/-- The `E` field of the never-populated root after `InitHierarchy`,
under float semantics: the slot scan breaks at `i = 0` and `E /= i`
(line 150) executes `0.f/0` in every channel.  (`p` stays at the
default origin since `sumWt = 0`, and `sumArea` stays `0`.) -/
def emptyRootFloatE : Fin 3 → Fl := fun _ => flDiv (some 0) (some 0)

/-- `Mo` (lines 479-509) on the never-populated initialised root,
under float semantics.  The root is the leaf with `p = (0,0,0)`,
`E = emptyRootFloatE`, `sumArea = 0` and no stored points; `inside`
stands for `octreeBounds.Inside(pt)`, which is false for every `pt`
because the bounds of an empty point set stay default-constructed
(degenerate).  `dw = sumArea / ‖pt − p‖²`; if `dw < maxError` and the
point is outside the bounds, the cluster approximation
`Rd(d²) * E * sumArea` is returned, otherwise the sum over the (zero)
stored points. -/
def moFloatEmptyRoot (pt : Vec3) (Rd : ℚ → ℚ) (maxError : ℚ)
    (inside : Bool) : Fin 3 → Fl :=
  let d2 : ℚ := distSq pt 0
  let dw : Fl := flDiv (some 0) (some d2)
  if (flLt dw (some maxError) && !inside) = true then
    fun i => flMul (flMul (some (Rd d2)) (emptyRootFloatE i)) (some 0)
  else fun _ => some 0

/-! #### Concrete sample data used by witness theorems -/

/-- A concrete irradiance point. -/
def demoIP1 : IrradiancePoint := ⟨fun _ => 1, fun _ => 0, fun _ => 2, 1, 0⟩

/-- Another concrete irradiance point. -/
def demoIP2 : IrradiancePoint := ⟨fun _ => 3, fun _ => 0, fun _ => 1, 2, 0⟩

/-- A concrete one-point leaf. -/
def demoLeaf1 : SSNode :=
  .leaf 0 0 1 [some demoIP1, none, none, none, none, none, none, none]

/-- A concrete two-point leaf. -/
def demoLeaf2 : SSNode :=
  .leaf 0 0 2 [some demoIP2, some demoIP1, none, none, none, none, none, none]

/-- A concrete two-level tree. -/
def demoTree : SSNode :=
  .interior 0 0 3 [some demoLeaf1, none, some demoLeaf2, none, none, none,
    none, none]

/-- A concrete zero-field two-level tree (as before `InitHierarchy`). -/
def demoTree0 : SSNode :=
  .interior 0 0 0 [some (SSNode.leaf 0 0 0
    [some demoIP1, some demoIP2, none, none, none, none, none, none]),
    none, none, none, none, none, none, none]

/-- A concrete bounding box. -/
def demoBox : BBox := ⟨fun _ => 0, fun _ => 4⟩

/-- A concrete query point. -/
def demoPt : Vec3 := fun _ => 10

/-- A concrete diffusion profile. -/
def demoRd : ℚ → Spectrum := fun d2 => fun _ => d2 + 1

/-- A concrete scalar diffusion profile (one channel). -/
def demoRdQ : ℚ → ℚ := fun d2 => d2 + 1

/-! ### The Poisson point-generation worker loop
(`PoissonPointTask::Run`, dipolesubsurface.cpp lines 328-429)

One worker is modelled as a loop over rounds; a round abstracts one
iteration of the outer `while (true)`: candidate generation always
traces exactly 20000 paths, and the environment supplies, for each
candidate, whether the read-locked first pass rejected it and whether
the write-locked re-check rejected it. -/

/-- A candidate's two pass outcomes. -/
structure Cand where
  firstRejected : Bool
  recheckFailed : Bool
deriving DecidableEq

/-- The shared counters updated inside the write section. -/
structure WState where
  repeatedFails : ℕ
  maxRepeatedFails : ℕ
  totalPathsTraced : ℕ
  totalRaysTraced : ℕ
  numPointsAdded : ℕ
deriving DecidableEq

/-- All counters start at zero
(`DipoleSubsurfaceIntegrator::Preprocess`, lines 252-254). -/
def initWState : WState := ⟨0, 0, 0, 0, 0⟩

/-- The way a worker returned: the repeated-failure counter reached
`maxFails`, or more than 50000 paths were traced with no point ever
deposited (the warning branch). -/
inductive ExitKind where
  | failLimit
  | noDeposits
deriving DecidableEq

/-- `maxRepeatedFails = max(maxRepeatedFails, ++repeatedFails)`
(lines 391 and 402). -/
def bumpFail (st : WState) : WState :=
  { st with repeatedFails := st.repeatedFails + 1,
            maxRepeatedFails := max st.maxRepeatedFails
              (st.repeatedFails + 1) }

/-- An accepted candidate: `++numPointsAdded; repeatedFails = 0`
(lines 407-408). -/
def acceptPoint (st : WState) : WState :=
  { st with numPointsAdded := st.numPointsAdded + 1, repeatedFails := 0 }

/-- `totalPathsTraced += pathsTraced; totalRaysTraced += raysTraced`
(lines 385-386); candidate generation always traces exactly 20000
paths. -/
def addTotals (st : WState) (rays : ℕ) : WState :=
  { st with totalPathsTraced := st.totalPathsTraced + 20000,
            totalRaysTraced := st.totalRaysTraced + rays }

/-- The write-section candidate loop (lines 388-415): a rejected
candidate (in either pass) increments `repeatedFails` and updates
`maxRepeatedFails`, returning as soon as `repeatedFails` reaches
`maxFails`; an accepted candidate increments `numPointsAdded` and
resets `repeatedFails`.  `.inr` is a mid-loop return. -/
def processCands (maxFails : ℕ) :
    WState → List Cand → WState ⊕ (ExitKind × WState)
  | st, [] => .inl st
  | st, c :: rest =>
    if c.firstRejected || c.recheckFailed then
      if maxFails ≤ st.repeatedFails + 1 then .inr (.failLimit, bumpFail st)
      else processCands maxFails (bumpFail st) rest
    else
      processCands maxFails (acceptPoint st) rest

/-- One iteration of the outer `while (true)` loop (lines 333-428):
check `repeatedFails >= maxFails` on entry to the write section, add
the 20000 traced paths (and `rays` rays) to the totals, run the
candidate loop, then return with the warning if more than 50000 paths
have been traced and no point was ever deposited. -/
def runRound (maxFails : ℕ) (st : WState) (rays : ℕ) (cands : List Cand) :
    WState ⊕ (ExitKind × WState) :=
  if maxFails ≤ st.repeatedFails then .inr (.failLimit, st)
  else
    match processCands maxFails (addTotals st rays) cands with
    | .inr e => .inr e
    | .inl st2 =>
      if 50000 < st2.totalPathsTraced ∧ st2.numPointsAdded = 0 then
        .inr (.noDeposits, st2)
      else .inl st2

/-- Run `n` rounds against an environment stream of `(rays, candidates)`
pairs; `.inl` means the loop is still running. -/
def runRounds (maxFails : ℕ) (stream : ℕ → ℕ × List Cand) :
    ℕ → WState → WState ⊕ (ExitKind × WState)
  | 0, st => .inl st
  | n + 1, st =>
    match runRound maxFails st (stream 0).1 (stream 0).2 with
    | .inl st' => runRounds maxFails (fun k => stream (k + 1)) n st'
    | .inr e => .inr e

/-- The worker loop terminates on the given environment. -/
def workerTerminates (maxFails : ℕ) (stream : ℕ → ℕ × List Cand)
    (st : WState) : Prop :=
  ∃ n e, runRounds maxFails stream n st = .inr e

/-- The environment of a scene without any BSSRDF material: no path
ever records a candidate. -/
def noBssrdfStream : ℕ → ℕ × List Cand := fun _ => (0, [])

/-- An environment under which the worker loop never returns: the first
round deposits one point, every later round yields no candidates. -/
def livelockStream : ℕ → ℕ × List Cand :=
  fun k => (0, if k = 0 then [⟨false, false⟩] else [])

/-- An environment whose every round yields one rejected candidate. -/
def rejStream : ℕ → ℕ × List Cand := fun _ => (0, [⟨true, false⟩])

/-! ### DipoleSubsurfaceIntegrator::Preprocess (lines 237-325) -/

/-- The preprocess-owned state of `DipoleSubsurfaceIntegrator`: the
collected irradiance points and the cluster octree root. -/
structure DipoleState where
  irradiancePoints : List IrradiancePoint
  octree : Option SSNode

/-- `DipoleSubsurfaceIntegrator::Preprocess` at the level of its owned
state: with zero lights it returns at once (line 239); otherwise the
Poisson workers append the deposited points (`gen` abstracts their
output), the irradiance pass fills each point's `E` (already reflected
in `gen`), and the cluster octree is built by inserting every point
with positive luminance into a fresh root and initialising the
hierarchy. -/
def dipolePreprocess (nLights : ℕ) (gen : List IrradiancePoint)
    (fuel : ℕ) (bounds : BBox) (st : DipoleState) : DipoleState :=
  if nLights = 0 then st
  else
    let pts := st.irradiancePoints ++ gen
    let root := (pts.filter (fun q => decide (0 < specY q.E))).foldl
      (fun nd q => insertIP fuel nd bounds q) emptyLeafNode
    { irradiancePoints := pts, octree := some (initH root) }

/-! ### The irradiance cache (integrators/irradiancecache.cpp)

Interpolation involves square roots (`Distance`, the angular error), so
this part of the embedding lives over the reals. -/

/-- A three-component real vector. -/
abbrev RVec3 := Fin 3 → ℝ

/-- A real-valued spectrum. -/
abbrev RSpectrum := Fin 3 → ℝ

/-- The dot product. -/
def rdot (a b : RVec3) : ℝ := a 0 * b 0 + a 1 * b 1 + a 2 * b 2

/-- `Distance(a, b)`. -/
noncomputable def rdist (a b : RVec3) : ℝ :=
  Real.sqrt ((a 0 - b 0)^2 + (a 1 - b 1)^2 + (a 2 - b 2)^2)

/-- An `IrradianceSample` cache record (irradiancecache.cpp lines
91-103): irradiance `E`, normal `n`, position `p`, weighted mean
incident direction `wAvg` and the validity radius `maxDist`. -/
structure IrradianceSample where
  E : RSpectrum
  n : RVec3
  p : RVec3
  wAvg : RVec3
  maxDist : ℝ

/-- The `IrradProcess` visitor state (lines 63-88). -/
structure IrradProcess where
  p : RVec3
  n : RVec3
  minWeight : ℝ
  cosMaxSampleAngleDifference : ℝ
  nFound : ℕ
  sumWt : ℝ
  E : RSpectrum
  wAvg : RVec3

/-- The `IrradProcess` constructor (lines 65-74). -/
def mkIrradProcess (P N : RVec3) (mw cm : ℝ) : IrradProcess :=
  ⟨P, N, mw, cm, 0, 0, 0, 0⟩

/-- `IrradProcess::operator()` (lines 304-319): the record contributes
iff `max(perr, nerr) < 1`, with
`perr = Distance(p, s.p) / s.maxDist` and
`nerr = sqrt((1 - n·s.n) / (1 - cosMaxSampleAngleDifference))`; a
contributing record adds weight `1 - err` to the accumulators. -/
noncomputable def irradStep (proc : IrradProcess) (s : IrradianceSample) :
    IrradProcess :=
  let perr := rdist proc.p s.p / s.maxDist
  let nerr := Real.sqrt ((1 - rdot proc.n s.n) /
    (1 - proc.cosMaxSampleAngleDifference))
  let err := max perr nerr
  if err < 1 then
    { proc with
      nFound := proc.nFound + 1,
      E := fun i => proc.E i + (1 - err) * s.E i,
      wAvg := fun i => proc.wAvg i + (1 - err) * s.wAvg i,
      sumWt := proc.sumWt + (1 - err) }
  else proc

/-- `IrradianceCacheIntegrator::interpolateE` (lines 288-301): fold the
visitor over the records the octree lookup finds (the list `samples`);
`Successful()` is `sumWt >= minWeight`, and on success the result is
`GetIrradiance() = E / sumWt` and `GetAverageDirection() = wAvg`. -/
noncomputable def interpolateE (samples : List IrradianceSample)
    (P N : RVec3) (mw cm : ℝ) : Option (RSpectrum × RVec3) :=
  let proc := samples.foldl irradStep (mkIrradProcess P N mw cm)
  if proc.minWeight ≤ proc.sumWt then
    some (fun i => proc.E i / proc.sumWt, proc.wAvg)
  else none

/-- The spec-side per-record weight: `w = 1 - max(e_p, e_n)` when the
combined error is below one, else zero. -/
noncomputable def specWeight (P N : RVec3) (cm : ℝ)
    (s : IrradianceSample) : ℝ :=
  let ep := rdist P s.p / s.maxDist
  let en := Real.sqrt ((1 - rdot N s.n) / (1 - cm))
  if max ep en < 1 then 1 - max ep en else 0

/-- A concrete query position. -/
def demoRP : RVec3 := fun _ => 0

/-- A concrete unit query normal. -/
def demoRN : RVec3 := fun i => if i = 2 then 1 else 0

/-- A concrete cache record at the query position with the query
normal. -/
def demoRSample : IrradianceSample :=
  ⟨fun _ => 5, demoRN, demoRP, fun _ => 3, 1⟩

/-! ### IrradianceCacheIntegrator::Preprocess (lines 125-153) -/

/-- The integrator state touched by `Preprocess`: the configuration
fields of `IrradianceCacheIntegrator` plus the octree contents. -/
structure ICState where
  minWeight : ℝ
  minSamplePixelSpacing : ℝ
  maxSamplePixelSpacing : ℝ
  cosMaxSampleAngleDifference : ℝ
  maxSpecularDepth : ℕ
  maxIndirectDepth : ℕ
  nSamples : ℕ
  octree : Option (List IrradianceSample)

/-- `IrradianceCacheIntegrator::Preprocess` as a state transformation:
install a fresh octree, multiply `minWeight` by 1.5, run the priming
tasks — whose only write to the integrator state is adding records to
the octree under the write lock (`indirectLo`, line 278); `primed`
abstracts the records they deposit — and finally divide `minWeight` by
1.5. -/
noncomputable def preprocessIC (primed : List IrradianceSample) (s : ICState) : ICState :=
  let s1 := { s with octree := some [] }
  let s2 := { s1 with minWeight := s1.minWeight * (3/2) }
  let s3 := { s2 with octree := some (s2.octree.getD [] ++ primed) }
  { s3 with minWeight := s3.minWeight / (3/2) }

end Pbrt

namespace Pbrt

/-- Evaluating the constructor on `[1,1,1,1]`: the CDF is
`[0, 1/4, 1/2, 3/4, 1]` and `funcInt = 1`. -/
theorem uniform4_eq :
    uniform4 = ⟨[1, 1, 1, 1], [0, 1/4, 1/2, 3/4, 1], 1, 4⟩ := by
  norm_num [uniform4, mkDistribution1D, List.scanl]

/-- Claim C6: for the uniform function `f = [1,1,1,1]` and every
`u ∈ [0,1]`, `Distribution1D::SampleContinuous` returns `x = u` and
writes `pdf = 1` exactly, following the rule
`x = (i + (u - CDF[i]) / (CDF[i+1] - CDF[i])) / n`,
`pdf = f[i] / funcInt`. -/
theorem C6_sampleContinuous_uniform (u : ℚ) (h0 : 0 ≤ u) (h1 : u ≤ 1) :
    sampleContinuous uniform4 u = (u, 1) := by
  rw [uniform4_eq]
  by_cases ha : u ≤ 0
  · have hu : u = 0 := le_antisymm ha h0
    subst hu
    norm_num [sampleContinuous, lowerBoundIdx]
  · by_cases hb : u ≤ 1/4
    · simp only [sampleContinuous, lowerBoundIdx, if_neg ha, if_pos hb]
      norm_num
      field_simp
    · by_cases hc : u ≤ 1/2
      · simp only [sampleContinuous, lowerBoundIdx, if_neg ha, if_neg hb, if_pos hc]
        norm_num
        field_simp
      · by_cases hd : u ≤ 3/4
        · simp only [sampleContinuous, lowerBoundIdx, if_neg ha, if_neg hb, if_neg hc,
            if_pos hd]
          norm_num
          field_simp
          ring
        · simp only [sampleContinuous, lowerBoundIdx, if_neg ha, if_neg hb, if_neg hc,
            if_neg hd, if_pos h1]
          norm_num
          field_simp

/-- Witness for C6 at `u = 1/3`. -/
theorem C6_sampleContinuous_uniform_witness :
    (0 : ℚ) ≤ 1/3 ∧ (1 : ℚ)/3 ≤ 1 ∧ sampleContinuous uniform4 (1/3) = (1/3, 1) :=
  ⟨by norm_num, by norm_num,
    C6_sampleContinuous_uniform (1/3) (by norm_num) (by norm_num)⟩

/-- Claim C3: on `f = [1,1]` (so `n = 2`, `funcInt = 1`) at `u = 1/4`,
`SampleDiscrete` returns bin 0 and writes `pdf = f[0]/funcInt = 1`,
whereas the claimed value `f[0]/(n * funcInt)` is `1/2`: the code omits
the division by `n`. -/
theorem C3_sampleDiscrete_pdf_bug :
    sampleDiscrete uniform2 (1/4) = (0, 1) ∧
    uniform2.func.getD 0 0 / ((uniform2.count : ℚ) * uniform2.funcInt) = 1/2 ∧
    ((1 : ℚ) ≠ 1/2) := by
  refine ⟨?_, by norm_num [uniform2, mkDistribution1D, List.scanl], by norm_num⟩
  norm_num [sampleDiscrete, uniform2, mkDistribution1D, List.scanl, lowerBoundIdx]

/-! ### The zero-light guard of DipoleSubsurfaceIntegrator::Preprocess -/

/-- Claim C10: with zero lights, `DipoleSubsurfaceIntegrator::Preprocess`
returns immediately: the irradiance-point list stays empty and the
cluster hierarchy is never built, regardless of what the generation
phase would have deposited. -/
theorem C10_no_lights_preprocess (gen : List IrradiancePoint) (fuel : ℕ)
    (bounds : BBox) :
    dipolePreprocess 0 gen fuel bounds ⟨[], none⟩ = ⟨[], none⟩ := by
  simp [dipolePreprocess]

/-! ### IrradianceCacheIntegrator::Preprocess restores minWeight -/

/-- Claim C8: `Preprocess` multiplies `minWeight` by 1.5 before the
priming tasks run and divides it by 1.5 after they complete, so
`minWeight` afterwards equals its original value exactly, and priming
modifies no other configuration field of the integrator. -/
theorem C8_minWeight_restored (primed : List IrradianceSample) (s : ICState) :
    (preprocessIC primed s).minWeight = s.minWeight ∧
    (preprocessIC primed s).minSamplePixelSpacing = s.minSamplePixelSpacing ∧
    (preprocessIC primed s).maxSamplePixelSpacing = s.maxSamplePixelSpacing ∧
    (preprocessIC primed s).cosMaxSampleAngleDifference =
      s.cosMaxSampleAngleDifference ∧
    (preprocessIC primed s).maxSpecularDepth = s.maxSpecularDepth ∧
    (preprocessIC primed s).maxIndirectDepth = s.maxIndirectDepth ∧
    (preprocessIC primed s).nSamples = s.nSamples := by
  refine ⟨?_, rfl, rfl, rfl, rfl, rfl, rfl⟩
  show s.minWeight * (3/2) / (3/2) = s.minWeight
  field_simp

/-! ### The empty-scene behaviour (claim C4) -/

/-- A break-at-first-null loop over 8 empty slots visits nothing. -/
theorem visitedPoints_empty : visitedPoints (List.replicate 8 none) = [] :=
  rfl

/-- `InitHierarchy` on a freshly constructed root leaves every
aggregate field at zero (the rational convention `0 / 0 = 0` stands in
for the C++ float `0.f / 0`). -/
theorem initH_empty : initH emptyLeafNode = emptyLeafNode := by
  unfold emptyLeafNode
  rw [initH.eq_def]
  simp [visitedPoints, divC]
  funext i
  simp [divC]

/-- `Mo` of a node with zero `E` and zero `sumArea` and no stored
points is the zero spectrum, whatever the bound, query point, profile
and error threshold. -/
theorem mo_emptyLeafNode (bound : BBox) (pt : Vec3) (Rd : ℚ → Spectrum)
    (maxError : ℚ) : mo emptyLeafNode bound pt Rd maxError = 0 := by
  rw [mo.eq_def]
  simp only [emptyLeafNode, ssSumArea, ssE, ssPos]
  split
  · funext i
    simp [sscale]
  · simp [visitedPoints]

/-- Claim C4 (code bug).  With no BSSRDF material no path ever records
a candidate (`noBssrdfStream`), and the worker does return cleanly
through the warning branch during its third round, once the shared
path total (60000) exceeds 50000 with zero points deposited.  But the
claim's second half fails on the program: `Preprocess` still runs
`InitHierarchy` on the never-populated root, whose leaf branch breaks
at `i = 0` and executes `E /= i` — `0.f/0`, NaN in every channel — and
`Mo` then takes the acceptance branch at any query outside the
degenerate bounds with positive `maxError` (here the default
`maxError = 1/20` at the query `(10,10,10)`) and returns
`Rd(d²) · NaN · 0 = NaN`, not the zero spectrum.  The exact-rational
model (`x / 0 = 0`) yields zero instead — the spec's stated intent —
as the last conjunct records. -/
theorem C4_empty_scene_mo_nan :
    (runRounds 2000 noBssrdfStream 3 initWState =
        .inr (.noDeposits, ⟨0, 0, 60000, 0, 0⟩) ∧
      (50000 : ℕ) < 60000) ∧
    (∀ i, emptyRootFloatE i = none) ∧
    (∀ i, moFloatEmptyRoot demoPt demoRdQ (1/20) false i = none) ∧
    moFloatEmptyRoot demoPt demoRdQ (1/20) false ≠ (fun _ => some 0) ∧
    (∀ bound pt Rd maxError,
      mo (initH emptyLeafNode) bound pt Rd maxError = 0) := by
  have hnan : ∀ i, moFloatEmptyRoot demoPt demoRdQ (1/20) false i = none := by
    intro i
    have hd2 : distSq demoPt 0 = 300 := by
      norm_num [distSq, demoPt]
    simp only [moFloatEmptyRoot, hd2]
    rw [if_pos (by norm_num [flDiv, flLt])]
    simp [flMul, flDiv, emptyRootFloatE]
  refine ⟨⟨?_, by norm_num⟩, fun i => rfl, hnan, ?_, ?_⟩
  · decide
  · intro h
    have h0 := congrFun h 0
    rw [hnan 0] at h0
    exact Option.noConfusion h0
  · intro bound pt Rd maxError
    rw [initH_empty]
    exact mo_emptyLeafNode bound pt Rd maxError

/-! ### The leaf contiguous-prefix invariant (claim C9) -/

/-- An all-null slot list has the prefix property. -/
theorem slotsOkB_of_allNone (ips : List (Option IrradiancePoint))
    (h : ips.all Option.isNone = true) : slotsOkB ips = true := by
  induction ips with
  | nil => rfl
  | cons a rest ih =>
    simp only [List.all_cons, Bool.and_eq_true] at h
    cases a with
    | none => simpa [slotsOkB] using h.2
    | some q => simp at h

/-- An all-null slot list stores no points. -/
theorem filterMap_of_allNone (ips : List (Option IrradiancePoint))
    (h : ips.all Option.isNone = true) : ips.filterMap id = [] := by
  induction ips with
  | nil => rfl
  | cons a rest ih =>
    simp only [List.all_cons, Bool.and_eq_true] at h
    cases a with
    | none => simpa [List.filterMap_cons] using ih h.2
    | some q => simp at h

/-- Storing a point in the first free slot preserves the prefix
property. -/
theorem slotsOkB_placeFirstFree (ip : IrradiancePoint) :
    ∀ ips ips', slotsOkB ips = true → placeFirstFree ip ips = some ips' →
      slotsOkB ips' = true := by
  intro ips
  induction ips with
  | nil => intro ips' _ h; simp [placeFirstFree] at h
  | cons a rest ih =>
    intro ips' hOk hpl
    cases a with
    | none =>
      simp only [placeFirstFree, Option.some.injEq] at hpl
      subst hpl
      show slotsOkB rest = true
      exact slotsOkB_of_allNone rest hOk
    | some q =>
      simp only [placeFirstFree, Option.map_eq_some'] at hpl
      obtain ⟨r', hr', hips⟩ := hpl
      subst hips
      show slotsOkB r' = true
      exact ih r' hOk hr'

/-- Under the prefix property, the break-at-first-null loop visits
exactly the stored points. -/
theorem visitedPoints_eq_filterMap :
    ∀ ips, slotsOkB ips = true → visitedPoints ips = ips.filterMap id := by
  intro ips
  induction ips with
  | nil => intro _; rfl
  | cons a rest ih =>
    intro hOk
    cases a with
    | none =>
      show ([] : List IrradiancePoint) = List.filterMap id (none :: rest)
      rw [List.filterMap_cons]
      exact (filterMap_of_allNone rest hOk).symm
    | some q =>
      show visitedPoints (some q :: rest) = _
      simp only [visitedPoints, List.takeWhile_cons, Option.isSome_some,
        List.filterMap_cons] at *
      simpa using ih hOk

/-- The first-null index (the length of the visited prefix) equals the
populated count. -/
theorem takeWhile_length_eq_filterMap_length :
    ∀ ips : List (Option IrradiancePoint), slotsOkB ips = true →
      (ips.takeWhile Option.isSome).length = (ips.filterMap id).length := by
  intro ips hOk
  rw [← visitedPoints_eq_filterMap ips hOk]
  clear hOk
  induction ips with
  | nil => rfl
  | cons a rest ih =>
    cases a with
    | none => rfl
    | some q => simpa [visitedPoints, List.takeWhile_cons] using ih

/-- Every non-null child of a prefix-sound child list is
prefix-sound. -/
theorem prefixOkKids_mem :
    ∀ cs, prefixOkKids cs = true → ∀ t : SSNode, some t ∈ cs →
      prefixOkB t = true := by
  intro cs
  induction cs with
  | nil => intro _ t ht; simp at ht
  | cons a rest ih =>
    intro hOk t ht
    rcases List.mem_cons.mp ht with h | h
    · cases a with
      | none => simp at h
      | some c =>
        simp only [prefixOkKids, Bool.and_eq_true] at hOk
        obtain rfl : c = t := by simpa using h.symm
        exact hOk.1
    · cases a with
      | none => exact ih hOk t h
      | some c =>
        simp only [prefixOkKids, Bool.and_eq_true] at hOk
        exact ih hOk.2 t h

/-- Reading a child slot with `getD` yields a prefix-sound child. -/
theorem prefixOkKids_getD (cs : List (Option SSNode)) (i : ℕ) (t : SSNode)
    (hOk : prefixOkKids cs = true) (hg : cs.getD i none = some t) :
    prefixOkB t = true := by
  apply prefixOkKids_mem cs hOk t
  rw [List.getD_eq_getElem?_getD] at hg
  cases h : cs[i]? with
  | none => rw [h] at hg; simp at hg
  | some a =>
    rw [h] at hg
    simp only [Option.getD_some] at hg
    subst hg
    obtain ⟨hlt, hv⟩ := List.getElem?_eq_some.mp h
    exact hv ▸ List.getElem_mem hlt

/-- Writing a prefix-sound child into a slot preserves prefix-soundness
of the child list. -/
theorem prefixOkKids_set :
    ∀ (cs : List (Option SSNode)) (i : ℕ) (t : SSNode),
      prefixOkKids cs = true → prefixOkB t = true →
      prefixOkKids (cs.set i (some t)) = true := by
  intro cs
  induction cs with
  | nil => intro i t _ _; rfl
  | cons a rest ih =>
    intro i t hOk ht
    cases i with
    | zero =>
      show prefixOkKids (some t :: rest) = true
      have hrest : prefixOkKids rest = true := by
        cases a with
        | none => exact hOk
        | some c => exact (Bool.and_eq_true _ _ |>.mp hOk).2
      simp [prefixOkKids, ht, hrest]
    | succ j =>
      show prefixOkKids (a :: rest.set j (some t)) = true
      cases a with
      | none => exact ih j t hOk ht
      | some c =>
        have h' := Bool.and_eq_true _ _ |>.mp hOk
        simp [prefixOkKids, h'.1, ih j t h'.2 ht]

/-- A fresh all-null child array is prefix-sound. -/
theorem prefixOkKids_replicate :
    prefixOkKids (List.replicate 8 (none : Option SSNode)) = true := rfl

/-- A freshly constructed node is prefix-sound. -/
theorem prefixOkB_emptyLeafNode : prefixOkB emptyLeafNode = true := rfl

/-- `Insert` preserves the contiguous-prefix invariant of every leaf in
the tree, for every recursion depth. -/
theorem insertIP_prefixOk (fuel : ℕ) :
    ∀ t bound ip, prefixOkB t = true →
      prefixOkB (insertIP fuel t bound ip) = true := by
  induction fuel with
  | zero => intro t bound ip h; simpa [insertIP] using h
  | succ fuel ih =>
    have hChild : ∀ (cs : List (Option SSNode)) bound q,
        prefixOkKids cs = true →
        prefixOkKids (insertIntoChild fuel bound cs q) = true := by
      intro cs bound q hcs
      rw [insertIntoChild]
      apply prefixOkKids_set _ _ _ hcs
      apply ih
      cases hg : cs.getD (octant q.p (midVec bound)) none with
      | none => simp [hg, prefixOkB_emptyLeafNode]
      | some c0 => simpa [hg] using prefixOkKids_getD cs _ c0 hcs hg
    intro t bound ip h
    cases t with
    | leaf pos E sA ips =>
      rw [insertIP]
      cases hpl : placeFirstFree ip ips with
      | some ips' =>
        simpa [hpl] using slotsOkB_placeFirstFree ip ips ips' h hpl
      | none =>
        simp only [hpl]
        show prefixOkKids (insertIntoChild fuel bound _ ip) = true
        apply hChild
        have hfold : ∀ (l : List IrradiancePoint) (cs : List (Option SSNode)),
            prefixOkKids cs = true →
            prefixOkKids
              (l.foldl (fun cs q => insertIntoChild fuel bound cs q) cs) =
              true := by
          intro l
          induction l with
          | nil => intro cs h'; simpa using h'
          | cons q rest ihl => intro cs h'; exact ihl _ (hChild _ _ _ h')
        exact hfold _ _ prefixOkKids_replicate
    | interior pos E sA cs =>
      rw [insertIP]
      exact hChild cs bound ip h

/-- Claim C9: every leaf of a subsurface cluster octree built by
insertion keeps its stored points in a contiguous prefix of the 8
slots (the fresh root is prefix-sound and `Insert` preserves the
invariant at every recursion depth), and under that invariant the
break-at-first-null loops of `InitHierarchy` and `Mo` visit exactly the
stored points, with the first-null index equal to the populated
count. -/
theorem C9_leaf_prefix_invariant :
    prefixOkB emptyLeafNode = true ∧
    (∀ fuel t bound ip, prefixOkB t = true →
      prefixOkB (insertIP fuel t bound ip) = true) ∧
    (∀ ips, slotsOkB ips = true →
      visitedPoints ips = ips.filterMap id ∧
      (ips.takeWhile Option.isSome).length = (ips.filterMap id).length) :=
  ⟨prefixOkB_emptyLeafNode,
   fun fuel => insertIP_prefixOk fuel,
   fun ips h => ⟨visitedPoints_eq_filterMap ips h,
                 takeWhile_length_eq_filterMap_length ips h⟩⟩

/-- Witness for C9: inserting a point into a concrete prefix-sound tree
preserves the invariant; visited-equals-stored at a concrete slot
array. -/
theorem C9_leaf_prefix_invariant_witness :
    prefixOkB (insertIP 4 demoTree demoBox demoIP1) = true ∧
    (visitedPoints [some demoIP1, none] =
        ([some demoIP1, none].filterMap id) ∧
      (([some demoIP1, none] :
            List (Option IrradiancePoint)).takeWhile Option.isSome).length =
        ([some demoIP1, none].filterMap id).length) :=
  ⟨C9_leaf_prefix_invariant.2.1 4 demoTree demoBox demoIP1 rfl,
   C9_leaf_prefix_invariant.2.2 [some demoIP1, none] rfl⟩

/-! ### Structural induction over the nested cluster tree -/

/-- Strong induction over `SSNode` through the nested child lists. -/
theorem ssnode_ind (P : SSNode → Prop)
    (hleaf : ∀ pos E sA ips, P (.leaf pos E sA ips))
    (hint : ∀ pos E sA cs, (∀ t : SSNode, some t ∈ cs → P t) →
      P (.interior pos E sA cs)) :
    ∀ t, P t := by
  have main : ∀ m : ℕ, ∀ t : SSNode, sizeOf t ≤ m → P t := by
    intro m
    induction m with
    | zero =>
      intro t h
      exfalso
      cases t <;> simp at h
    | succ m ih =>
      intro t h
      cases t with
      | leaf pos E sA ips => exact hleaf pos E sA ips
      | interior pos E sA cs =>
        refine hint pos E sA cs (fun u hu => ih u ?_)
        have h1 : sizeOf (some u) < sizeOf cs := List.sizeOf_lt_of_mem hu
        have h2 : sizeOf (SSNode.interior pos E sA cs) =
            1 + sizeOf pos + sizeOf E + sizeOf sA + sizeOf cs := by simp
        have h3 : sizeOf (some u) = 1 + sizeOf u := by simp
        omega
  exact fun t => main (sizeOf t) t le_rfl

/-! ### Mo with maxError = 0 is the brute-force sum (claim C2) -/

/-- Squared distances are nonnegative. -/
theorem distSq_nonneg (a b : Vec3) : 0 ≤ distSq a b := by
  simp only [distSq]
  positivity

/-- The brute-force sum splits over list append. -/
theorem bruteMo_append (l1 l2 : List IrradiancePoint) (pt : Vec3)
    (Rd : ℚ → Spectrum) :
    bruteMo (l1 ++ l2) pt Rd = bruteMo l1 pt Rd + bruteMo l2 pt Rd := by
  simp [bruteMo]

/-- Every non-null child of an area-sound child list is
area-sound. -/
theorem nonnegAreaKids_mem :
    ∀ cs, nonnegAreaKids cs = true → ∀ t : SSNode, some t ∈ cs →
      nonnegAreaB t = true := by
  intro cs
  induction cs with
  | nil => intro _ t ht; simp at ht
  | cons a rest ih =>
    intro hOk t ht
    rcases List.mem_cons.mp ht with h | h
    · cases a with
      | none => simp at h
      | some c =>
        simp only [nonnegAreaKids, Bool.and_eq_true] at hOk
        obtain rfl : c = t := by simpa using h.symm
        exact hOk.1
    · cases a with
      | none => exact ih hOk t h
      | some c =>
        simp only [nonnegAreaKids, Bool.and_eq_true] at hOk
        exact ih hOk.2 t h

/-- The child loop of `Mo` at `maxError = 0` computes the brute-force
sum of the children, given that every non-null child does. -/
theorem moKids_zero (pt : Vec3) (Rd : ℚ → Spectrum) :
    ∀ (cs : List (Option SSNode)),
      (∀ t : SSNode, some t ∈ cs → prefixOkB t = true →
        nonnegAreaB t = true → ∀ bound,
        mo t bound pt Rd 0 = bruteMo (allPoints t) pt Rd) →
      prefixOkKids cs = true → nonnegAreaKids cs = true →
      ∀ i bound pMid,
        moKids cs i bound pMid pt Rd 0 = bruteMo (allPointsKids cs) pt Rd := by
  intro cs
  induction cs with
  | nil => intro _ _ _ i bound pMid; simp [moKids, allPointsKids, bruteMo]
  | cons a rest ih =>
    intro hmem hpre hnn i bound pMid
    cases a with
    | none =>
      rw [moKids, allPointsKids]
      exact ih (fun t ht => hmem t (List.mem_cons_of_mem _ ht)) hpre hnn
        (i + 1) bound pMid
    | some c =>
      simp only [prefixOkKids, Bool.and_eq_true] at hpre
      simp only [nonnegAreaKids, Bool.and_eq_true] at hnn
      rw [moKids, allPointsKids, bruteMo_append]
      have hc := hmem c (List.mem_cons_self _ _) hpre.1 hnn.1
        (octreeChildBound i bound pMid)
      rw [hc]
      rw [ih (fun t ht => hmem t (List.mem_cons_of_mem _ ht)) hpre.2 hnn.2
        (i + 1) bound pMid]

/-- `Mo` at `maxError = 0` never takes the cluster approximation and
returns the brute-force sum over all stored points. -/
theorem mo_zero_error (pt : Vec3) (Rd : ℚ → Spectrum) :
    ∀ t, prefixOkB t = true → nonnegAreaB t = true → ∀ bound,
      mo t bound pt Rd 0 = bruteMo (allPoints t) pt Rd := by
  intro t
  induction t using ssnode_ind with
  | hleaf pos E sA ips =>
    intro hpre hnn bound
    have hsa : 0 ≤ sA := by simpa [nonnegAreaB] using hnn
    have hcond : ¬ (ssSumArea (SSNode.leaf pos E sA ips) /
        distSq pt (ssPos (SSNode.leaf pos E sA ips)) < 0 ∧
        bboxInside bound pt = false) := by
      intro hc
      exact absurd hc.1 (not_lt.mpr (div_nonneg (by simpa [ssSumArea] using hsa)
        (distSq_nonneg pt _)))
    rw [mo.eq_def]
    simp only [if_neg hcond]
    rw [visitedPoints_eq_filterMap ips (by simpa [prefixOkB] using hpre)]
    rfl
  | hint pos E sA cs ihm =>
    intro hpre hnn bound
    simp only [nonnegAreaB, Bool.and_eq_true] at hnn
    have hcond : ¬ (ssSumArea (SSNode.interior pos E sA cs) /
        distSq pt (ssPos (SSNode.interior pos E sA cs)) < 0 ∧
        bboxInside bound pt = false) := by
      intro hc
      refine absurd hc.1 (not_lt.mpr (div_nonneg ?_ (distSq_nonneg pt _)))
      simpa [ssSumArea] using (by exact_mod_cast of_decide_eq_true hnn.1 : 0 ≤ sA)
    rw [mo.eq_def]
    simp only [if_neg hcond]
    show moKids cs 0 bound (midVec bound) pt Rd 0 =
      bruteMo (allPoints (SSNode.interior pos E sA cs)) pt Rd
    rw [allPoints]
    exact moKids_zero pt Rd cs ihm (by simpa [prefixOkB] using hpre) hnn.2
      0 bound (midVec bound)

/-- Claim C2: for every cluster hierarchy whose leaves are prefix-sound
and whose `sumArea` fields are nonnegative (both hold for every built
hierarchy: insertion keeps prefixes contiguous and `InitHierarchy` sums
nonnegative Poisson cell areas), evaluating `Mo` with `maxError = 0`
never fires the solid-angle acceptance test and returns exactly the
brute-force sum `Σ Rd(‖p − p_i‖²) · E_i · area_i` over all stored
irradiance points. -/
theorem C2_mo_zero_error_brute_force (t : SSNode) (pt : Vec3)
    (Rd : ℚ → Spectrum) (bound : BBox) (hpre : prefixOkB t = true)
    (hnn : nonnegAreaB t = true) :
    mo t bound pt Rd 0 = bruteMo (allPoints t) pt Rd :=
  mo_zero_error pt Rd t hpre hnn bound

/-- Witness for C2 on a concrete two-level tree. -/
theorem C2_mo_zero_error_brute_force_witness :
    prefixOkB demoTree = true ∧ nonnegAreaB demoTree = true ∧
    mo demoTree demoBox demoPt demoRd 0 =
      bruteMo (allPoints demoTree) demoPt demoRd := by
  have h1 : prefixOkB demoTree = true := rfl
  have h2 : nonnegAreaB demoTree = true := by
    norm_num [nonnegAreaB, nonnegAreaKids, demoTree, demoLeaf1, demoLeaf2]
  exact ⟨h1, h2, C2_mo_zero_error_brute_force demoTree demoPt demoRd demoBox h1 h2⟩

/-! ### The InitHierarchy aggregate invariant (claim C5) -/

/-- Every non-null child of a zero-field child list has zero
fields. -/
theorem zeroFieldsKids_mem :
    ∀ cs, zeroFieldsKids cs = true → ∀ t : SSNode, some t ∈ cs →
      zeroFieldsB t = true := by
  intro cs
  induction cs with
  | nil => intro _ t ht; simp at ht
  | cons a rest ih =>
    intro hOk t ht
    rcases List.mem_cons.mp ht with h | h
    · cases a with
      | none => simp at h
      | some c =>
        simp only [zeroFieldsKids, Bool.and_eq_true] at hOk
        obtain rfl : c = t := by simpa using h.symm
        exact hOk.1
    · cases a with
      | none => exact ih hOk t h
      | some c =>
        simp only [zeroFieldsKids, Bool.and_eq_true] at hOk
        exact ih hOk.2 t h

/-- If every non-null child initialises to an invariant-satisfying
node, the initialised child list satisfies the child invariant. -/
theorem initInvKids_initKids :
    ∀ cs : List (Option SSNode),
      (∀ t : SSNode, some t ∈ cs → initInv (initH t)) →
      initInvKids (initKids cs) := by
  intro cs
  induction cs with
  | nil => intro _; rw [initKids]; rw [initInvKids]; trivial
  | cons a rest ih =>
    intro h
    cases a with
    | none =>
      rw [initKids, initInvKids]
      exact ih (fun t ht => h t (List.mem_cons_of_mem _ ht))
    | some c =>
      rw [initKids, initInvKids]
      exact ⟨h c (List.mem_cons_self _ _),
        ih (fun t ht => h t (List.mem_cons_of_mem _ ht))⟩

/-- `InitHierarchy` establishes the aggregate invariant on every node,
for every tree whose leaves are prefix-sound and whose aggregate fields
start at zero (as default-constructed nodes do). -/
theorem initH_initInv : ∀ t, prefixOkB t = true → zeroFieldsB t = true →
    initInv (initH t) := by
  intro t
  induction t using ssnode_ind with
  | hleaf pos E sA ips =>
    intro hpre hz
    have hz' : pos = 0 ∧ E = 0 ∧ sA = 0 := by
      simpa [zeroFieldsB, Bool.and_eq_true, and_assoc, decide_eq_true_eq]
        using hz
    obtain ⟨rfl, rfl, rfl⟩ := hz'
    have hpre' : slotsOkB ips = true := by simpa [prefixOkB] using hpre
    rw [initH]
    rw [visitedPoints_eq_filterMap ips hpre']
    rw [initInv]
    exact ⟨by simp, by simp, by simp⟩
  | hint pos E sA cs ihm =>
    intro hpre hz
    have hz4 : (pos = 0 ∧ E = 0 ∧ sA = 0) ∧ zeroFieldsKids cs = true := by
      simpa [zeroFieldsB, Bool.and_eq_true, and_assoc, decide_eq_true_eq]
        using hz
    obtain ⟨⟨rfl, rfl, rfl⟩, hzk⟩ := hz4
    have hpk : prefixOkKids cs = true := by simpa [prefixOkB] using hpre
    rw [initH]
    rw [initInv]
    refine ⟨by simp, by simp, by simp, ?_⟩
    apply initInvKids_initKids
    intro t ht
    exact ihm t ht (prefixOkKids_mem cs hpk t ht) (zeroFieldsKids_mem cs hzk t ht)

/-- Claim C5: after `InitHierarchy`, every node of the cluster
hierarchy satisfies: a leaf has `sumArea` equal to the sum of the
stored points' areas and `E` equal to the mean of the stored points'
`E` over the populated count; an interior node has `sumArea` equal to
the sum of its non-null children's `sumArea` and `E` equal to the mean
of the non-null children's `E` over the non-null child count; and the
centroid `p` is divided by the luminance weight sum only when that sum
is positive.  The hypotheses — contiguous leaf prefixes and zero
starting aggregates — hold for every tree built by insertion from
default-constructed nodes. -/
theorem C5_initHierarchy_aggregates (t : SSNode)
    (hpre : prefixOkB t = true) (hz : zeroFieldsB t = true) :
    initInv (initH t) :=
  initH_initInv t hpre hz

/-- Witness for C5 on a concrete zero-field tree. -/
theorem C5_initHierarchy_aggregates_witness :
    prefixOkB demoTree0 = true ∧ zeroFieldsB demoTree0 = true ∧
    initInv (initH demoTree0) := by
  have h1 : prefixOkB demoTree0 = true := rfl
  have h2 : zeroFieldsB demoTree0 = true := by
    simp [zeroFieldsB, zeroFieldsKids, demoTree0]
  exact ⟨h1, h2, C5_initHierarchy_aggregates demoTree0 h1 h2⟩

/-! ### Worker-loop termination and exit conditions (claim C7) -/

/-- The candidate loop returns mid-loop only through the `maxFails`
check, with `repeatedFails` at or above `maxFails`. -/
theorem processCands_inr (maxFails : ℕ) :
    ∀ (cands : List Cand) (st : WState) (k : ExitKind) (stf : WState),
      processCands maxFails st cands = .inr (k, stf) →
      k = .failLimit ∧ maxFails ≤ stf.repeatedFails := by
  intro cands
  induction cands with
  | nil => intro st k stf h; simp [processCands] at h
  | cons c rest ih =>
    intro st k stf h
    rw [processCands] at h
    split at h
    · split at h
      next hm =>
        simp only [Sum.inr.injEq, Prod.mk.injEq] at h
        obtain ⟨hk, hstf⟩ := h
        subst hk
        subst hstf
        exact ⟨rfl, by simpa [bumpFail] using hm⟩
      next hm => exact ih _ _ _ h
    · exact ih _ _ _ h

/-- One round returns only with `repeatedFails ≥ maxFails`
(`failLimit`) or with more than 50000 paths and zero deposits
(`noDeposits`). -/
theorem runRound_inr (maxFails : ℕ) (st : WState) (rays : ℕ)
    (cands : List Cand) (k : ExitKind) (stf : WState)
    (h : runRound maxFails st rays cands = .inr (k, stf)) :
    (k = .failLimit → maxFails ≤ stf.repeatedFails) ∧
    (k = .noDeposits →
      50000 < stf.totalPathsTraced ∧ stf.numPointsAdded = 0) := by
  rw [runRound] at h
  split at h
  next hm =>
    simp only [Sum.inr.injEq, Prod.mk.injEq] at h
    obtain ⟨hk, hstf⟩ := h
    subst hk
    subst hstf
    exact ⟨fun _ => hm, fun hk => by simp at hk⟩
  next hm =>
    split at h
    next e heq =>
      simp only [Sum.inr.injEq] at h
      subst h
      obtain ⟨hk, hrf⟩ := processCands_inr maxFails cands _ k stf heq
      subst hk
      exact ⟨fun _ => hrf, fun hk => by simp at hk⟩
    next st2 heq =>
      split at h
      next hcond =>
        simp only [Sum.inr.injEq, Prod.mk.injEq] at h
        obtain ⟨hk, hstf⟩ := h
        subst hk
        subst hstf
        exact ⟨fun hk => by simp at hk, fun _ => hcond⟩
      next hcond => simp at h

/-- A worker run returns only through the two exit checks. -/
theorem runRounds_inr (maxFails : ℕ) :
    ∀ (n : ℕ) (stream : ℕ → ℕ × List Cand) (st : WState) (k : ExitKind)
      (stf : WState),
      runRounds maxFails stream n st = .inr (k, stf) →
      (k = .failLimit → maxFails ≤ stf.repeatedFails) ∧
      (k = .noDeposits →
        50000 < stf.totalPathsTraced ∧ stf.numPointsAdded = 0) := by
  intro n
  induction n with
  | zero => intro stream st k stf h; simp [runRounds] at h
  | succ n ih =>
    intro stream st k stf h
    rw [runRounds] at h
    split at h
    next st' heq => exact ih _ _ _ _ h
    next e heq =>
      simp only [Sum.inr.injEq] at h
      subst h
      exact runRound_inr maxFails st _ _ k stf heq

/-- All-rejected candidate batches grow `repeatedFails` by the batch
length, unless the loop exits. -/
theorem processCands_rejected (maxFails : ℕ) :
    ∀ (cands : List Cand) (st : WState),
      (∀ c ∈ cands, c.firstRejected = true ∨ c.recheckFailed = true) →
      (∃ e, processCands maxFails st cands = .inr e) ∨
      (∃ st2, processCands maxFails st cands = .inl st2 ∧
        st.repeatedFails + cands.length ≤ st2.repeatedFails) := by
  intro cands
  induction cands with
  | nil =>
    intro st _
    right
    exact ⟨st, rfl, by simp⟩
  | cons c rest ih =>
    intro st hrej
    have hc : (c.firstRejected || c.recheckFailed) = true := by
      rcases hrej c (List.mem_cons_self _ _) with h | h <;> simp [h]
    rw [processCands, if_pos hc]
    by_cases hm : maxFails ≤ st.repeatedFails + 1
    · rw [if_pos hm]
      left
      exact ⟨_, rfl⟩
    · rw [if_neg hm]
      rcases ih _ (fun c' hc' => hrej c' (List.mem_cons_of_mem _ hc')) with
        ⟨e, he⟩ | ⟨st2, he, hle⟩
      · left
        exact ⟨e, he⟩
      · right
        refine ⟨st2, he, ?_⟩
        simp only [List.length_cons]
        simp only [bumpFail] at hle
        omega

/-- A round whose candidates are all rejected (and nonempty) either
returns or strictly grows `repeatedFails`. -/
theorem runRound_rejected (maxFails : ℕ) (st : WState) (rays : ℕ)
    (cands : List Cand) (hne : cands ≠ [])
    (hrej : ∀ c ∈ cands, c.firstRejected = true ∨ c.recheckFailed = true) :
    (∃ e, runRound maxFails st rays cands = .inr e) ∨
    (∃ st2, runRound maxFails st rays cands = .inl st2 ∧
      st.repeatedFails + 1 ≤ st2.repeatedFails) := by
  rw [runRound]
  by_cases hm : maxFails ≤ st.repeatedFails
  · rw [if_pos hm]
    left
    exact ⟨_, rfl⟩
  · rw [if_neg hm]
    rcases processCands_rejected maxFails cands (addTotals st rays) hrej with
      ⟨e, he⟩ | ⟨st2, he, hle⟩
    · rw [he]
      left
      exact ⟨e, rfl⟩
    · rw [he]
      dsimp only
      have hlen : 1 ≤ cands.length := by
        cases cands with
        | nil => exact absurd rfl hne
        | cons a l => simp
      split
      · left
        exact ⟨_, rfl⟩
      · right
        refine ⟨st2, rfl, ?_⟩
        simp only [addTotals] at hle
        omega

/-- Against an environment whose every round yields a nonempty
all-rejected batch, the worker loop terminates. -/
theorem runRounds_terminate_rejected (maxFails : ℕ) :
    ∀ (stream : ℕ → ℕ × List Cand) (st : WState),
      (∀ k, (stream k).2 ≠ [] ∧
        ∀ c ∈ (stream k).2,
          c.firstRejected = true ∨ c.recheckFailed = true) →
      workerTerminates maxFails stream st := by
  have main : ∀ m : ℕ, ∀ (stream : ℕ → ℕ × List Cand) (st : WState),
      (∀ k, (stream k).2 ≠ [] ∧
        ∀ c ∈ (stream k).2,
          c.firstRejected = true ∨ c.recheckFailed = true) →
      maxFails - st.repeatedFails ≤ m →
      workerTerminates maxFails stream st := by
    intro m
    induction m with
    | zero =>
      intro stream st hstream hle
      have hm : maxFails ≤ st.repeatedFails := by omega
      refine ⟨1, (.failLimit, st), ?_⟩
      rw [runRounds, runRound, if_pos hm]
    | succ m ih =>
      intro stream st hstream hle
      by_cases hm : maxFails ≤ st.repeatedFails
      · refine ⟨1, (.failLimit, st), ?_⟩
        rw [runRounds, runRound, if_pos hm]
      · obtain ⟨hne, hrej⟩ := hstream 0
        rcases runRound_rejected maxFails st (stream 0).1 (stream 0).2 hne hrej
          with ⟨e, he⟩ | ⟨st2, he, hgrow⟩
        · refine ⟨1, e, ?_⟩
          rw [runRounds, he]
        · obtain ⟨n, e, hterm⟩ := ih (fun k => stream (k + 1)) st2
            (fun k => hstream (k + 1)) (by omega)
          refine ⟨n + 1, e, ?_⟩
          rw [runRounds, he]
          exact hterm
  intro stream st hstream
  exact main (maxFails - st.repeatedFails) stream st hstream le_rfl

/-- Splitting a run into two phases. -/
theorem runRounds_add (maxFails : ℕ) :
    ∀ (m n : ℕ) (stream : ℕ → ℕ × List Cand) (st : WState),
      runRounds maxFails stream (m + n) st =
        (match runRounds maxFails stream m st with
          | .inl st' => runRounds maxFails (fun k => stream (k + m)) n st'
          | .inr e => .inr e) := by
  intro m
  induction m with
  | zero =>
    intro n stream st
    simp [runRounds]
  | succ m ih =>
    intro n stream st
    have hmn : m + 1 + n = (m + n) + 1 := by omega
    rw [hmn, runRounds]
    conv_rhs => rw [runRounds]
    cases hr : runRound maxFails st (stream 0).1 (stream 0).2 with
    | inr e => rfl
    | inl st' =>
      dsimp only
      rw [ih n (fun k => stream (k + 1)) st']
      rfl

/-- Termination once some suffix of the environment is all-rejected
and nonempty each round. -/
theorem runRounds_terminate_eventually (maxFails : ℕ)
    (stream : ℕ → ℕ × List Cand) (st : WState) (N : ℕ)
    (hyp : ∀ k, N ≤ k → (stream k).2 ≠ [] ∧
      ∀ c ∈ (stream k).2, c.firstRejected = true ∨ c.recheckFailed = true) :
    workerTerminates maxFails stream st := by
  cases hN : runRounds maxFails stream N st with
  | inr e => exact ⟨N, e, hN⟩
  | inl st' =>
    obtain ⟨n, e, h⟩ := runRounds_terminate_rejected maxFails
      (fun k => stream (k + N)) st' (fun k => hyp (k + N) (by omega))
    refine ⟨N + n, e, ?_⟩
    rw [runRounds_add maxFails N n stream st, hN]
    exact h

/-- Claim C7 as stated is false: under the environment that deposits a
point in the first round and then produces no candidates, the worker
loop never returns (no exit condition ever holds again). -/
theorem runRounds_noBssrdf_livelock (maxFails : ℕ) :
    ∀ (n : ℕ) (st : WState), st.repeatedFails < maxFails →
      st.numPointsAdded ≠ 0 →
      ∃ st', runRounds maxFails noBssrdfStream n st = .inl st' ∧
        st'.repeatedFails = st.repeatedFails ∧
        st'.numPointsAdded = st.numPointsAdded := by
  intro n
  induction n with
  | zero => intro st h1 h2; exact ⟨st, rfl, rfl, rfl⟩
  | succ n ih =>
    intro st h1 h2
    rw [runRounds]
    have hnc : ¬ (50000 < (addTotals st 0).totalPathsTraced ∧
        (addTotals st 0).numPointsAdded = 0) :=
      fun hc => h2 (by simpa [addTotals] using hc.2)
    have hr : runRound maxFails st (noBssrdfStream 0).1 (noBssrdfStream 0).2 =
        .inl (addTotals st 0) := by
      simp only [noBssrdfStream]
      rw [runRound, if_neg (by omega), processCands]
      exact if_neg hnc
    rw [hr]
    dsimp only
    rw [show (fun k => noBssrdfStream (k + 1)) = noBssrdfStream from rfl]
    obtain ⟨st', h', hrf, hnp⟩ := ih (addTotals st 0)
      (by simpa [addTotals] using h1) (by simpa [addTotals] using h2)
    exact ⟨st', h', by simpa [addTotals] using hrf,
      by simpa [addTotals] using hnp⟩

/-- The livelock environment agrees with the candidate-free environment
from round 1 on. -/
theorem livelockStream_shift :
    (fun k => livelockStream (k + 1)) = noBssrdfStream := by
  funext k
  simp [livelockStream, noBssrdfStream]

/-- Counterexample to claim C7: the worker loop does not terminate
under the livelock environment (first round accepts one candidate, all
later rounds trace paths but record no candidates), at the default
`maxFails = 2000`. -/
theorem C7_worker_termination_counterexample :
    ¬ workerTerminates 2000 livelockStream initWState := by
  rintro ⟨n, e, h⟩
  cases n with
  | zero => simp [runRounds] at h
  | succ n =>
    rw [runRounds] at h
    have hr : runRound 2000 initWState (livelockStream 0).1
        (livelockStream 0).2 = .inl ⟨0, 0, 20000, 0, 1⟩ := by decide
    rw [hr] at h
    dsimp only at h
    rw [livelockStream_shift] at h
    obtain ⟨st', h', _, _⟩ := runRounds_noBssrdf_livelock 2000 n
      ⟨0, 0, 20000, 0, 1⟩ (by norm_num) (by norm_num)
    rw [h'] at h
    simp at h

/-- Claim C7, amended: the worker loop returns only when the shared
repeated-failure counter reaches `maxFails` (checked on entry to the
write section and after each rejected candidate) or when the total
paths traced exceed 50000 with no point ever deposited; and the loop
terminates provided that from some round on, every round yields at
least one candidate and every candidate is rejected.  (Unconditional
termination fails: see the counterexample.) -/
theorem C7_worker_loop_amended :
    (∀ (maxFails : ℕ) (stream : ℕ → ℕ × List Cand) (n : ℕ) (st : WState)
      (k : ExitKind) (stf : WState),
      runRounds maxFails stream n st = .inr (k, stf) →
      (k = .failLimit → maxFails ≤ stf.repeatedFails) ∧
      (k = .noDeposits →
        50000 < stf.totalPathsTraced ∧ stf.numPointsAdded = 0)) ∧
    (∀ (maxFails : ℕ) (stream : ℕ → ℕ × List Cand) (st : WState) (N : ℕ),
      (∀ k, N ≤ k → (stream k).2 ≠ [] ∧
        ∀ c ∈ (stream k).2,
          c.firstRejected = true ∨ c.recheckFailed = true) →
      workerTerminates maxFails stream st) :=
  ⟨fun maxFails stream n st k stf h => runRounds_inr maxFails n stream st k stf h,
   fun maxFails stream st N hyp =>
     runRounds_terminate_eventually maxFails stream st N hyp⟩

/-- Witness for the amended C7: the all-rejected environment
terminates at `maxFails = 2`. -/
theorem C7_worker_loop_amended_witness :
    workerTerminates 2 rejStream initWState :=
  C7_worker_loop_amended.2 2 rejStream initWState 0
    (fun k _ => ⟨by simp [rejStream], by simp [rejStream]⟩)

/-! ### Irradiance-cache interpolation (claim C1) -/

/-- One visitor step: the query fields are unchanged; the accumulators
grow by the spec weight `w = 1 - max(e_p, e_n)` when the combined
error is below one, and are unchanged (weight zero) otherwise. -/
theorem irradStep_fields (proc : IrradProcess) (s : IrradianceSample) :
    (irradStep proc s).p = proc.p ∧
    (irradStep proc s).n = proc.n ∧
    (irradStep proc s).minWeight = proc.minWeight ∧
    (irradStep proc s).cosMaxSampleAngleDifference =
      proc.cosMaxSampleAngleDifference ∧
    (irradStep proc s).sumWt = proc.sumWt +
      specWeight proc.p proc.n proc.cosMaxSampleAngleDifference s ∧
    (∀ i, (irradStep proc s).E i = proc.E i +
      specWeight proc.p proc.n proc.cosMaxSampleAngleDifference s * s.E i) ∧
    (∀ i, (irradStep proc s).wAvg i = proc.wAvg i +
      specWeight proc.p proc.n proc.cosMaxSampleAngleDifference s *
        s.wAvg i) := by
  by_cases hc : max (rdist proc.p s.p / s.maxDist)
      (Real.sqrt ((1 - rdot proc.n s.n) /
        (1 - proc.cosMaxSampleAngleDifference))) < 1
  · simp [irradStep, specWeight, hc]
  · simp [irradStep, specWeight, hc]

/-- Folding the visitor over the candidate records preserves the query
fields and accumulates exactly the spec weights, the weighted spectra
and the weighted directions. -/
theorem irradStep_fold (samples : List IrradianceSample) :
    ∀ proc : IrradProcess,
      (samples.foldl irradStep proc).p = proc.p ∧
      (samples.foldl irradStep proc).n = proc.n ∧
      (samples.foldl irradStep proc).minWeight = proc.minWeight ∧
      (samples.foldl irradStep proc).cosMaxSampleAngleDifference =
        proc.cosMaxSampleAngleDifference ∧
      (samples.foldl irradStep proc).sumWt = proc.sumWt +
        (samples.map (specWeight proc.p proc.n
          proc.cosMaxSampleAngleDifference)).sum ∧
      (∀ i, (samples.foldl irradStep proc).E i = proc.E i +
        (samples.map (fun s => specWeight proc.p proc.n
          proc.cosMaxSampleAngleDifference s * s.E i)).sum) ∧
      (∀ i, (samples.foldl irradStep proc).wAvg i = proc.wAvg i +
        (samples.map (fun s => specWeight proc.p proc.n
          proc.cosMaxSampleAngleDifference s * s.wAvg i)).sum) := by
  induction samples with
  | nil => intro proc; simp
  | cons s rest ih =>
    intro proc
    obtain ⟨h1, h2, h3, h4, h5, h6, h7⟩ := irradStep_fields proc s
    obtain ⟨g1, g2, g3, g4, g5, g6, g7⟩ := ih (irradStep proc s)
    rw [h1, h2, h4] at g5 g6 g7
    refine ⟨by rw [List.foldl_cons, g1, h1],
      by rw [List.foldl_cons, g2, h2],
      by rw [List.foldl_cons, g3, h3],
      by rw [List.foldl_cons, g4, h4], ?_, ?_, ?_⟩
    · rw [List.foldl_cons, g5, h5, List.map_cons, List.sum_cons]
      ring
    · intro i
      rw [List.foldl_cons, g6 i, h6 i, List.map_cons, List.sum_cons]
      ring
    · intro i
      rw [List.foldl_cons, g7 i, h7 i, List.map_cons, List.sum_cons]
      ring

/-- Claim C1: for a query `(P, N)` and the candidate records the octree
lookup finds, every record contributes exactly when
`max(e_p, e_n) < 1`, with weight `w = 1 - max(e_p, e_n)`
(`specWeight`); the accumulated weight sum and weighted irradiance are
the sums of those per-record terms; the interpolation succeeds iff the
weight sum is at least `minWeight`; on success it returns
`ΣwE / Σw` and the direction-weighted sum `Σ w·wAvg`; and with a single
cached record whose position and normal equal the query's (unit) ones
and whose `maxDist` is positive, interpolation succeeds for
`minWeight ≤ 1` and returns exactly the record's stored `E`. -/
theorem C1_interpolation (P N : RVec3) (mw cm : ℝ)
    (samples : List IrradianceSample) :
    ((samples.foldl irradStep (mkIrradProcess P N mw cm)).sumWt =
      (samples.map (specWeight P N cm)).sum) ∧
    (∀ i, (samples.foldl irradStep (mkIrradProcess P N mw cm)).E i =
      (samples.map (fun s => specWeight P N cm s * s.E i)).sum) ∧
    ((interpolateE samples P N mw cm).isSome ↔
      mw ≤ (samples.map (specWeight P N cm)).sum) ∧
    (mw ≤ (samples.map (specWeight P N cm)).sum →
      interpolateE samples P N mw cm =
        some (fun i =>
            (samples.map (fun s => specWeight P N cm s * s.E i)).sum /
              (samples.map (specWeight P N cm)).sum,
          fun i =>
            (samples.map (fun s => specWeight P N cm s * s.wAvg i)).sum)) ∧
    (∀ s : IrradianceSample, s.p = P → s.n = N → rdot N N = 1 →
      0 < s.maxDist → mw ≤ 1 →
      interpolateE [s] P N mw cm = some (s.E, s.wAvg)) := by
  obtain ⟨f1, f2, f3, f4, f5, f6, f7⟩ :=
    irradStep_fold samples (mkIrradProcess P N mw cm)
  have hmk : (mkIrradProcess P N mw cm).p = P ∧
      (mkIrradProcess P N mw cm).n = N ∧
      (mkIrradProcess P N mw cm).minWeight = mw ∧
      (mkIrradProcess P N mw cm).cosMaxSampleAngleDifference = cm :=
    ⟨rfl, rfl, rfl, rfl⟩
  rw [hmk.1, hmk.2.1, hmk.2.2.2] at f5 f6 f7
  have hsum : (samples.foldl irradStep (mkIrradProcess P N mw cm)).sumWt =
      (samples.map (specWeight P N cm)).sum := by
    rw [f5]
    show (0 : ℝ) + _ = _
    rw [zero_add]
  have hE : ∀ i, (samples.foldl irradStep (mkIrradProcess P N mw cm)).E i =
      (samples.map (fun s => specWeight P N cm s * s.E i)).sum := by
    intro i
    rw [f6 i]
    show (0 : ℝ) + _ = _
    rw [zero_add]
  have hW : ∀ i,
      (samples.foldl irradStep (mkIrradProcess P N mw cm)).wAvg i =
      (samples.map (fun s => specWeight P N cm s * s.wAvg i)).sum := by
    intro i
    rw [f7 i]
    show (0 : ℝ) + _ = _
    rw [zero_add]
  have hiff : (interpolateE samples P N mw cm).isSome ↔
      mw ≤ (samples.map (specWeight P N cm)).sum := by
    simp only [interpolateE]
    rw [f3, hmk.2.2.1, hsum]
    split
    next h => simp [h]
    next h => simp [h]
  have hres : mw ≤ (samples.map (specWeight P N cm)).sum →
      interpolateE samples P N mw cm =
        some (fun i =>
            (samples.map (fun s => specWeight P N cm s * s.E i)).sum /
              (samples.map (specWeight P N cm)).sum,
          fun i =>
            (samples.map (fun s => specWeight P N cm s * s.wAvg i)).sum) := by
    intro hle
    simp only [interpolateE]
    rw [if_pos (by rw [f3, hmk.2.2.1, hsum]; exact hle)]
    simp only [Option.some.injEq, Prod.mk.injEq]
    constructor
    · funext i
      rw [hE i, hsum]
    · funext i
      exact hW i
  refine ⟨hsum, hE, hiff, hres, ?_⟩
  intro s hp hn hdot hmd hmw
  have hw : specWeight P N cm s = 1 := by
    have h1 : rdist P s.p = 0 := by
      rw [hp]
      simp [rdist]
    have h2 : (1 : ℝ) - rdot N s.n = 0 := by
      rw [hn, hdot]
      ring
    simp only [specWeight, h1, h2, zero_div, Real.sqrt_zero, max_self]
    norm_num
  obtain ⟨e1, e2, e3, e4, e5, e6, e7⟩ :=
    irradStep_fold [s] (mkIrradProcess P N mw cm)
  rw [hmk.1, hmk.2.1, hmk.2.2.2] at e5 e6 e7
  have hsum1 : (List.foldl irradStep (mkIrradProcess P N mw cm) [s]).sumWt =
      1 := by
    rw [e5]
    show (0 : ℝ) + _ = 1
    simp [hw]
  simp only [interpolateE]
  rw [if_pos (by rw [e3, hmk.2.2.1, hsum1]; exact hmw)]
  simp only [Option.some.injEq, Prod.mk.injEq]
  constructor
  · funext i
    rw [e6 i, hsum1]
    show ((0 : ℝ) + _) / 1 = _
    simp [hw]
  · funext i
    rw [e7 i]
    show (0 : ℝ) + _ = _
    simp [hw]

/-- Witness for C1: the hit-identity at a concrete record. -/
theorem C1_interpolation_witness :
    interpolateE [demoRSample] demoRP demoRN (1/2) (1/2) =
      some (demoRSample.E, demoRSample.wAvg) :=
  (C1_interpolation demoRP demoRN (1/2) (1/2) [demoRSample]).2.2.2.2
    demoRSample rfl rfl
    (by norm_num [rdot, demoRN, show (0 : Fin 3) ≠ 2 by decide,
      show (1 : Fin 3) ≠ 2 by decide])
    (by norm_num [demoRSample])
    (by norm_num)

end Pbrt
